import Mathlib

/-!
# Verification of the versioned layer store (pageserver core)

Shallow embedding, in Lean 4, of the parts of the repository needed to check
the specification's claims:

* `src/pageserver/src/tenant.rs` — `merge_local_remote_metadata`,
  `tree_sort_timelines`, the branch-point validity checks of
  `branch_timeline_impl`;
* `src/pageserver/src/tenant/storage_layer.rs` — `range_overlaps`,
  `ResidentOrWantedEvicted`, `LayerE::get_or_download`;
* `src/libs/layer_map/src/lib.rs` — the generic `Reader`/`ReadWriter`
  layer map together with the concrete `InMemoryLayer`/`LayerMap`
  (`HistoricStuff`) implementations from that file's test module.

Machine integers (`usize`, LSNs) are modelled as `Nat`; none of the modelled
code paths rely on overflow.  `BTreeMap`s are modelled as association lists
kept sorted in ascending key order, matching the iteration order the code
relies on.  Fallible paths return `Except`; Rust panics (`todo!`,
`unreachable!`, failing `assert!`) are modelled as explicit error outcomes so
that theorems can speak about them.

Where a behaviour is decided by repository code that is not part of the
sources (the `utils::seqwait` module, `Timeline::check_lsn_is_in_scope`, the
`InMemoryLayer::freeze` body, which is `todo!()` in the test module), the
definition is modelled from the specification and says so in its doc comment.
-/

/-! ## `range_overlaps` (src/pageserver/src/tenant/storage_layer.rs:51-60) -/

/-- Rust's half-open `std::ops::Range { start, end }`; the `end` field is
called `stop` here because `end` is a Lean keyword. -/
structure RRange (α : Type) where
  start : α
  stop : α
deriving DecidableEq

/-- Embeds `range_overlaps` from storage_layer.rs:
`if a.start < b.start { a.end > b.start } else { b.end > a.start }`. -/
def range_overlaps {α : Type} [LinearOrder α] (a b : RRange α) : Bool :=
  if a.start < b.start then decide (b.start < a.stop) else decide (a.start < b.stop)

/-! ## `merge_local_remote_metadata` (src/pageserver/src/tenant.rs:338-389) -/

/-- The fields of `TimelineMetadata` the modelled code inspects: the two LSNs
compared by `merge_local_remote_metadata` and the ancestor pointer used by
`tree_sort_timelines`.  LSNs and timeline ids are `Nat`. -/
structure TimelineMetadata where
  disk_consistent_lsn : Nat
  latest_gc_cutoff_lsn : Nat
  ancestor_timeline : Option Nat
deriving DecidableEq, Repr

/-- Embeds `merge_local_remote_metadata` (tenant.rs:338-389).  The `(Equal,
Equal)`, `(Greater, Greater)`, `(Greater, Equal)` and `(Equal, Greater)` arms
all return `Ok((local, true))`; every other comparison pair bails with the
"remote ahead" error. -/
def merge_local_remote_metadata (localM remoteM : Option TimelineMetadata) :
    Except String (TimelineMetadata × Bool) :=
  match localM, remoteM with
  | none, none => .error "we should have either local metadata or remote"
  | some l, none => .ok (l, true)
  | none, some r => .ok (r, false)
  | some l, some r =>
    match compare l.disk_consistent_lsn r.disk_consistent_lsn,
        compare l.latest_gc_cutoff_lsn r.latest_gc_cutoff_lsn with
    | .eq, .eq => .ok (l, true)
    | .gt, .gt => .ok (l, true)
    | .gt, .eq => .ok (l, true)
    | .eq, .gt => .ok (l, true)
    | .lt, .lt => .error "remote metadata appears to be ahead of local metadata"
    | .lt, .eq => .error "remote metadata appears to be ahead of local metadata"
    | .eq, .lt => .error "remote metadata appears to be ahead of local metadata"
    | .lt, .gt => .error "remote metadata appears to be ahead of local metadata"
    | .gt, .lt => .error "remote metadata appears to be ahead of local metadata"

/-! ## Branch-point validity checks (src/pageserver/src/tenant.rs:3111-3163) -/

/-- The two fields of `GcInfo` read by `branch_timeline_impl`. -/
structure GcInfo where
  pitr_cutoff : Nat
  horizon_cutoff : Nat
deriving DecidableEq

/-- Modelled from the spec: `Timeline::check_lsn_is_in_scope` lives in
`timeline.rs`, which is not among the sources; per the spec (§4.7, §8) the
branch point must satisfy `start_lsn ≥ latest_gc_cutoff_of_source`, with
equality allowed, so the check fails exactly when `lsn <
latest_gc_cutoff_lsn`. -/
def check_lsn_is_in_scope (lsn latest_gc_cutoff_lsn : Nat) : Except String Unit :=
  if lsn < latest_gc_cutoff_lsn then
    .error "invalid branch start lsn: less than latest GC cutoff"
  else
    .ok ()

/-- Embeds the `start_lsn` validity checks of `branch_timeline_impl`
(tenant.rs:3145-3163): first `check_lsn_is_in_scope` against the last actual
`latest_gc_cutoff_lsn`, then a bail if `start_lsn < min(pitr_cutoff,
horizon_cutoff)` from `gc_info`. -/
def branch_start_lsn_checks (start_lsn latest_gc_cutoff_lsn : Nat) (gc_info : GcInfo) :
    Except String Unit :=
  match check_lsn_is_in_scope start_lsn latest_gc_cutoff_lsn with
  | .error e => .error e
  | .ok () =>
    let cutoff := min gc_info.pitr_cutoff gc_info.horizon_cutoff
    if start_lsn < cutoff then
      .error "invalid branch start lsn: less than planned GC cutoff"
    else
      .ok ()

/-! ## Theorems for C10, C2, C6 -/

/-- **C10**: for non-empty half-open ranges over a totally ordered type,
`range_overlaps a b` holds iff the ranges share a point, and `range_overlaps`
is symmetric. -/
theorem range_overlaps_iff_exists_and_comm {α : Type} [LinearOrder α] (a b : RRange α)
    (ha : a.start < a.stop) (hb : b.start < b.stop) :
    (range_overlaps a b = true ↔
      ∃ x, (a.start ≤ x ∧ x < a.stop) ∧ (b.start ≤ x ∧ x < b.stop))
    ∧ range_overlaps a b = range_overlaps b a := by
  constructor
  · unfold range_overlaps
    by_cases h : a.start < b.start
    · simp only [if_pos h, decide_eq_true_eq]
      constructor
      · intro hov
        exact ⟨b.start, ⟨le_of_lt h, hov⟩, ⟨le_refl _, hb⟩⟩
      · rintro ⟨x, ⟨_, hx2⟩, ⟨hx3, _⟩⟩
        exact lt_of_le_of_lt hx3 hx2
    · simp only [if_neg h, decide_eq_true_eq]
      push_neg at h
      constructor
      · intro hov
        exact ⟨a.start, ⟨le_refl _, ha⟩, ⟨h, hov⟩⟩
      · rintro ⟨x, ⟨hx1, _⟩, ⟨_, hx4⟩⟩
        exact lt_of_le_of_lt hx1 hx4
  · unfold range_overlaps
    rcases lt_trichotomy a.start b.start with h | h | h
    · rw [if_pos h, if_neg (not_lt_of_lt h)]
    · have h1 : ¬ a.start < b.start := by rw [h]; exact lt_irrefl _
      have h2 : ¬ b.start < a.start := by rw [h]; exact lt_irrefl _
      have hab : a.start < b.stop := by rw [h]; exact hb
      have hba : b.start < a.stop := by rw [← h]; exact ha
      rw [if_neg h1, if_neg h2, decide_eq_true hab, decide_eq_true hba]
    · rw [if_neg (not_lt_of_lt h), if_pos h]

/-- Witness for C10 at `a = [0, 2)`, `b = [1, 3)` over `Nat`. -/
theorem range_overlaps_iff_exists_and_comm_witness :
    ((0 : Nat) < 2 ∧ (1 : Nat) < 3)
    ∧ ((range_overlaps (⟨0, 2⟩ : RRange Nat) ⟨1, 3⟩ = true ↔
        ∃ x, ((0 : Nat) ≤ x ∧ x < 2) ∧ (1 ≤ x ∧ x < 3))
      ∧ range_overlaps (⟨0, 2⟩ : RRange Nat) ⟨1, 3⟩ = range_overlaps ⟨1, 3⟩ ⟨0, 2⟩) :=
  ⟨⟨by decide, by decide⟩,
    range_overlaps_iff_exists_and_comm (⟨0, 2⟩ : RRange Nat) ⟨1, 3⟩ (by decide) (by decide)⟩

/-- **C2 counterexample**: with `local = (2, 2)` and `remote = (1, 1)` both
comparisons are `Greater` — i.e. *both* components are strictly greater, not
at most one — yet `merge_local_remote_metadata` accepts and returns the local
metadata instead of failing as the claim demands. -/
theorem merge_local_remote_metadata_both_greater_accepted :
    merge_local_remote_metadata
        (some ⟨2, 2, none⟩) (some ⟨1, 1, none⟩) = .ok (⟨2, 2, none⟩, true)
    ∧ (1 : Nat) < 2 ∧ (1 : Nat) < 2 :=
  ⟨rfl, by decide, by decide⟩

/-- **C2 (amended)**: both `None` errors; exactly one present returns it with
`is_local` marking the side; both present returns `Ok((local, true))` exactly
when `local` is `≥` `remote` in *both* dimensions (including the case where
both are strictly greater), and fails with the remote-ahead error otherwise. -/
theorem merge_local_remote_metadata_spec (l r : TimelineMetadata) :
    merge_local_remote_metadata none none =
      .error "we should have either local metadata or remote"
    ∧ merge_local_remote_metadata (some l) none = .ok (l, true)
    ∧ merge_local_remote_metadata none (some r) = .ok (r, false)
    ∧ (r.disk_consistent_lsn ≤ l.disk_consistent_lsn ∧
        r.latest_gc_cutoff_lsn ≤ l.latest_gc_cutoff_lsn →
        merge_local_remote_metadata (some l) (some r) = .ok (l, true))
    ∧ (¬(r.disk_consistent_lsn ≤ l.disk_consistent_lsn ∧
        r.latest_gc_cutoff_lsn ≤ l.latest_gc_cutoff_lsn) →
        merge_local_remote_metadata (some l) (some r) =
          .error "remote metadata appears to be ahead of local metadata") := by
  refine ⟨rfl, rfl, rfl, ?_, ?_⟩
  · rintro ⟨h1, h2⟩
    simp only [merge_local_remote_metadata]
    rcases lt_or_eq_of_le h1 with h1' | h1'
    · rcases lt_or_eq_of_le h2 with h2' | h2'
      · rw [Nat.compare_eq_gt.mpr h1', Nat.compare_eq_gt.mpr h2']
      · rw [Nat.compare_eq_gt.mpr h1', Nat.compare_eq_eq.mpr h2'.symm]
    · rcases lt_or_eq_of_le h2 with h2' | h2'
      · rw [Nat.compare_eq_eq.mpr h1'.symm, Nat.compare_eq_gt.mpr h2']
      · rw [Nat.compare_eq_eq.mpr h1'.symm, Nat.compare_eq_eq.mpr h2'.symm]
  · intro h
    simp only [merge_local_remote_metadata]
    rcases Nat.lt_or_ge l.disk_consistent_lsn r.disk_consistent_lsn with hd | hd
    · rw [Nat.compare_eq_lt.mpr hd]
      rcases Nat.lt_trichotomy l.latest_gc_cutoff_lsn r.latest_gc_cutoff_lsn with hg | hg | hg
      · rw [Nat.compare_eq_lt.mpr hg]
      · rw [Nat.compare_eq_eq.mpr hg]
      · rw [Nat.compare_eq_gt.mpr hg]
    · have hg : l.latest_gc_cutoff_lsn < r.latest_gc_cutoff_lsn := by
        rcases Nat.lt_or_ge l.latest_gc_cutoff_lsn r.latest_gc_cutoff_lsn with hg | hg
        · exact hg
        · exact absurd ⟨hd, hg⟩ h
      rw [Nat.compare_eq_lt.mpr hg]
      rcases Nat.lt_or_ge r.disk_consistent_lsn l.disk_consistent_lsn with hd' | hd'
      · rw [Nat.compare_eq_gt.mpr hd']
      · rw [Nat.compare_eq_eq.mpr (Nat.le_antisymm hd' hd)]

/-- Witness for C2's amended theorem at `l = (3, 4)`, `r = (3, 2)` (remote
not ahead on either axis, so the local metadata is accepted). -/
theorem merge_local_remote_metadata_spec_witness :
    ((3 : Nat) ≤ 3 ∧ (2 : Nat) ≤ 4)
    ∧ merge_local_remote_metadata (some ⟨3, 4, none⟩) (some ⟨3, 2, none⟩) =
        .ok (⟨3, 4, none⟩, true) :=
  ⟨⟨by decide, by decide⟩,
    (merge_local_remote_metadata_spec ⟨3, 4, none⟩ ⟨3, 2, none⟩).2.2.2.1 ⟨by decide, by decide⟩⟩

/-- **C6**: the branch-point checks of `branch_timeline_impl` succeed iff
`start_lsn` is at least the source's `latest_gc_cutoff_lsn` and at least
`min(pitr_cutoff, horizon_cutoff)`; in particular (when the planned cutoff
does not exceed the latest cutoff, and the latest cutoff is positive)
branching exactly at `latest_gc_cutoff_lsn` succeeds while branching at
`latest_gc_cutoff_lsn - 1` fails with an invalid-branch-start-lsn error. -/
theorem branch_start_lsn_checks_spec (start_lsn latest_gc_cutoff_lsn : Nat) (gc_info : GcInfo)
    (hplanned : min gc_info.pitr_cutoff gc_info.horizon_cutoff ≤ latest_gc_cutoff_lsn)
    (hpos : 0 < latest_gc_cutoff_lsn) :
    (branch_start_lsn_checks start_lsn latest_gc_cutoff_lsn gc_info = .ok () ↔
      latest_gc_cutoff_lsn ≤ start_lsn ∧
        min gc_info.pitr_cutoff gc_info.horizon_cutoff ≤ start_lsn)
    ∧ branch_start_lsn_checks latest_gc_cutoff_lsn latest_gc_cutoff_lsn gc_info = .ok ()
    ∧ branch_start_lsn_checks (latest_gc_cutoff_lsn - 1) latest_gc_cutoff_lsn gc_info =
        .error "invalid branch start lsn: less than latest GC cutoff" := by
  have key : ∀ s : Nat,
      (branch_start_lsn_checks s latest_gc_cutoff_lsn gc_info = .ok () ↔
        latest_gc_cutoff_lsn ≤ s ∧ min gc_info.pitr_cutoff gc_info.horizon_cutoff ≤ s) := by
    intro s
    unfold branch_start_lsn_checks check_lsn_is_in_scope
    by_cases h1 : s < latest_gc_cutoff_lsn
    · simp only [if_pos h1]
      constructor
      · intro h; cases h
      · rintro ⟨h2, _⟩; exact absurd h1 (not_lt_of_le h2)
    · simp only [if_neg h1]
      push_neg at h1
      by_cases h2 : s < min gc_info.pitr_cutoff gc_info.horizon_cutoff
      · simp only [if_pos h2]
        constructor
        · intro h; cases h
        · rintro ⟨_, h3⟩; exact absurd h2 (not_lt_of_le h3)
      · simp only [if_neg h2]
        push_neg at h2
        constructor
        · intro _; exact ⟨h1, h2⟩
        · intro _; simp
  refine ⟨key start_lsn, ?_, ?_⟩
  · exact (key latest_gc_cutoff_lsn).mpr ⟨le_refl _, hplanned⟩
  · unfold branch_start_lsn_checks check_lsn_is_in_scope
    rw [if_pos (Nat.sub_lt hpos Nat.one_pos)]

/-- Witness for C6 at `start_lsn = 5`, `latest_gc_cutoff_lsn = 5`,
`gc_info = (pitr 4, horizon 7)`. -/
theorem branch_start_lsn_checks_spec_witness :
    (min (4 : Nat) 7 ≤ 5 ∧ (0 : Nat) < 5)
    ∧ ((branch_start_lsn_checks 5 5 ⟨4, 7⟩ = .ok () ↔ 5 ≤ 5 ∧ min (4 : Nat) 7 ≤ 5)
      ∧ branch_start_lsn_checks 5 5 ⟨4, 7⟩ = .ok ()
      ∧ branch_start_lsn_checks (5 - 1) 5 ⟨4, 7⟩ =
          .error "invalid branch start lsn: less than latest GC cutoff") :=
  ⟨⟨by decide, by decide⟩,
    branch_start_lsn_checks_spec 5 5 ⟨4, 7⟩ (by decide) (by decide)⟩

/-! ## The layer map (src/libs/layer_map/src/lib.rs)

The generic `Reader`/`ReadWriter` pair is instantiated, as in the file's test
module, with `Key = usize`, `Lsn = usize`, `DeltaRecord = &'static str`,
`LsnCounter = UsizeCounter`, and the test module's `InMemoryLayer` /
`LayerMap` implementations.  `usize` becomes `Nat` and `&'static str` becomes
`String`.  `BTreeMap<usize, _>` becomes an association list kept in ascending
key order (`alLookup` / `alInsert` / `alSet`), which reproduces the ordered
iteration that `range(..=lsn)` relies on. -/

/-- `BTreeMap::get`. -/
def alLookup {α : Type} : List (Nat × α) → Nat → Option α
  | [], _ => none
  | (k, v) :: rest, key => if k = key then some v else alLookup rest key

/-- Insertion into an ascending association list at a key that is absent
(`Entry::Vacant::insert`). -/
def alInsert {α : Type} : List (Nat × α) → Nat → α → List (Nat × α)
  | [], k, v => [(k, v)]
  | (k', v') :: rest, k, v =>
    if k < k' then (k, v) :: (k', v') :: rest else (k', v') :: alInsert rest k v

/-- `BTreeMap::insert` as used through `entry(k).or_default()` followed by a
write-back of the modified inner value: replaces the value at `k`, or inserts
it in ascending position when `k` is absent. -/
def alSet {α : Type} : List (Nat × α) → Nat → α → List (Nat × α)
  | [], k, v => [(k, v)]
  | (k', v') :: rest, k, v =>
    if k = k' then (k, v) :: rest
    else if k < k' then (k, v) :: (k', v') :: rest
    else (k', v') :: alSet rest k v

/-- The test module's `InMemoryLayer` (lib.rs:275-279): a `frozen` flag and a
two-level map `key → lsn → delta`. -/
structure InMemoryLayer where
  frozen : Bool
  by_key : List (Nat × List (Nat × String))
deriving DecidableEq, Repr

/-- `InMemoryLayer::default()` (`#[derive(Default)]`, lib.rs:275). -/
def imlDefault : InMemoryLayer := { frozen := false, by_key := [] }

/-- `InMemoryLayerPutError` (lib.rs:23-27). -/
inductive InMemoryLayerPutError where
  | Frozen
  | LayerFull
  | AlreadyHaveRecordForKeyAndLsn
deriving DecidableEq, Repr

/-- Embeds `InMemoryLayer::put` (lib.rs:284-304): fails with `Frozen` when the
layer is frozen, with `AlreadyHaveRecordForKeyAndLsn` when `(key, lsn)` is
occupied, and otherwise records the delta.  (The Rust version hands the
rejected delta back with the error; the delta is the caller's argument, so it
is dropped here.) -/
def InMemoryLayer.put (self : InMemoryLayer) (key lsn : Nat) (delta : String) :
    Except InMemoryLayerPutError InMemoryLayer :=
  if self.frozen then .error .Frozen
  else
    let bk := (alLookup self.by_key key).getD []
    match alLookup bk lsn with
    | some _ => .error .AlreadyHaveRecordForKeyAndLsn
    | none => .ok { self with by_key := alSet self.by_key key (alInsert bk lsn delta) }

/-- Embeds `InMemoryLayer::get` (lib.rs:306-317): all deltas for `key` with
LSN ≤ `lsn`, newest (highest LSN) first. -/
def InMemoryLayer.get (self : InMemoryLayer) (key lsn : Nat) : List String :=
  match alLookup self.by_key key with
  | none => []
  | some bk => ((bk.filter (fun p => p.1 ≤ lsn)).map Prod.snd).reverse

/-- Modelled from the spec (§4.2): `freeze` is "idempotent; transitions to
`Frozen`".  The test module's implementation body is `todo!()`
(lib.rs:319-321), i.e. left unimplemented in the sources, so the trait-level
contract from the spec is embedded instead. -/
def InMemoryLayer.freeze (self : InMemoryLayer) : InMemoryLayer :=
  { self with frozen := true }

/-- The test module's `HistoricLayer(InMemoryLayer)` (lib.rs:226). -/
structure HistoricLayer where
  inmem : InMemoryLayer
deriving DecidableEq, Repr

/-- The test module's `LayerMap` (the `HistoricStuff` implementation,
lib.rs:228-231): `key → lsn → historic layer`. -/
structure LayerMap where
  by_key : List (Nat × List (Nat × HistoricLayer))
deriving DecidableEq, Repr

/-- Embeds `LayerMap::get_reconstruct_path` (lib.rs:248-257): the historic
layers covering `key` at LSN ≤ `lsn`, newest first.  (The Rust return type's
error enum `GetReconstructPathError` has no variants, so the `Result` is
always `Ok` and is modelled as the plain list.) -/
def LayerMap.get_reconstruct_path (self : LayerMap) (key lsn : Nat) : List HistoricLayer :=
  match alLookup self.by_key key with
  | none => []
  | some bk => ((bk.filter (fun p => p.1 ≤ lsn)).map Prod.snd).reverse

/-- Inner loop of `make_historic` (lib.rs:264-270): index every LSN of one
key at the new historic layer; overwriting an existing entry trips the
`assert!(…, "layers must not overlap")`, modelled as an error. -/
def makeHistoricInner (bk : List (Nat × HistoricLayer)) (historic : HistoricLayer) :
    List (Nat × String) → Except String (List (Nat × HistoricLayer))
  | [] => .ok bk
  | (lsn, _) :: rest =>
    match alLookup bk lsn with
    | some _ => .error "layers must not overlap"
    | none => makeHistoricInner (alInsert bk lsn historic) historic rest

/-- Outer loop of `make_historic` (lib.rs:263-271) over the keys of the
in-memory layer. -/
def makeHistoricOuter (copy : List (Nat × List (Nat × HistoricLayer))) (historic : HistoricLayer) :
    List (Nat × List (Nat × String)) →
      Except String (List (Nat × List (Nat × HistoricLayer)))
  | [] => .ok copy
  | (k, lsns) :: rest =>
    match makeHistoricInner ((alLookup copy k).getD []) historic lsns with
    | .error e => .error e
    | .ok bk => makeHistoricOuter (alSet copy k bk) historic rest

/-- Embeds `LayerMap::make_historic` (lib.rs:259-272): a copy of the index
that additionally references the new historic layer from every `(key, lsn)`
it covers. -/
def LayerMap.make_historic (self : LayerMap) (inmem : InMemoryLayer) :
    Except String LayerMap :=
  match makeHistoricOuter self.by_key ⟨inmem⟩ inmem.by_key with
  | .error e => .error e
  | .ok by_key => .ok ⟨by_key⟩

/-- The `State<T>` published through the gate (lib.rs:59-63): the open
in-memory layer slot and the historic stuff. -/
structure LMState where
  inmem : Option InMemoryLayer
  historic : LayerMap
deriving DecidableEq, Repr

/-- Modelled from the spec (§4.1): the `utils::seqwait` module is not among
the sources.  A `SeqWait` holds a monotonic counter — here the test module's
`UsizeCounter` (lib.rs:233-244), whose `cnt_advance` *assigns* the new value
unconditionally — plus the published data.  `advance(new_lsn, new_state?)`
(spec precondition: `new_lsn ≥ current_lsn`) updates the counter via
`cnt_advance` and, when a new state is supplied, replaces the published data;
`get_current_data` reads the published data; `wait_for(target)` returns the
published data once the published LSN is ≥ `target`.  `SeqWaitRW` is the
writer's view (`Advance`); `Reader.get` below is the reader's view. -/
structure SeqWaitRW where
  counter : Nat
  data : LMState
deriving DecidableEq, Repr

/-- `UsizeCounter::cnt_advance` (lib.rs:237-239): unconditional assignment. -/
def UsizeCounter.cnt_advance (_self new_val : Nat) : Nat := new_val

/-- Modelled from the spec (§4.1): `SeqWait::advance`. -/
def SeqWaitRW.advance (self : SeqWaitRW) (new_lsn : Nat) (new_data : Option LMState) :
    SeqWaitRW :=
  { counter := UsizeCounter.cnt_advance self.counter new_lsn,
    data := new_data.getD self.data }

/-- The Rust panics reachable from the `ReadWriter` write path, modelled as
explicit outcomes. -/
inductive RwPanic where
  /-- the `unreachable!(…)` in the `Frozen` arm of `ReadWriter::put` (lib.rs:141-143) -/
  | unreachableFrozen
  /-- `todo!("propagate error to caller")` in the duplicate arm (lib.rs:144-146) -/
  | todoPropagateError
  /-- `todo!("write out to disk; …")` in the `LayerFull` arm (lib.rs:147-160) -/
  | todoWriteOut
  /-- the `assert!(…, "layers must not overlap")` inside `make_historic` (lib.rs:268) -/
  | assertLayersOverlap
deriving DecidableEq, Repr

/-- Embeds `ReadWriter::put` (lib.rs:124-163): fetch (or default-create) the
open in-memory layer through the published state's mutex, `put` into it in
place, and on success `advance(lsn, None)`.  The `Frozen`, duplicate and
`LayerFull` arms panic (`unreachable!` / `todo!`). -/
def ReadWriter.put (rw : SeqWaitRW) (key lsn : Nat) (delta : String) :
    Except RwPanic SeqWaitRW :=
  let inmem := rw.data.inmem.getD imlDefault
  match inmem.put key lsn delta with
  | .ok inmem' =>
    .ok (SeqWaitRW.advance { rw with data := { rw.data with inmem := some inmem' } } lsn none)
  | .error .Frozen => .error .unreachableFrozen
  | .error .AlreadyHaveRecordForKeyAndLsn => .error .todoPropagateError
  | .error .LayerFull => .error .todoWriteOut

/-- Embeds `ReadWriter::force_flush` (lib.rs:165-185).  With an empty open
slot it returns at once.  Otherwise it freezes the layer *in place* (through
the shared state's mutex), clones it, builds `new_historic` and a fresh
`new_state` — and then returns `Ok(())` without ever calling `advance`: the
`new_state` is dropped, so the published state still holds the now-frozen
layer in its open slot, the published historic set is unchanged, and the
published LSN is untouched. -/
def ReadWriter.force_flush (rw : SeqWaitRW) : Except RwPanic SeqWaitRW :=
  match rw.data.inmem with
  | none => .ok rw
  | some inmem =>
    let frozen_inmem := inmem.freeze
    match rw.data.historic.make_historic frozen_inmem with
    | .error _ => .error .assertLayersOverlap
    | .ok _new_historic =>
      .ok { rw with data := { rw.data with inmem := some frozen_inmem } }

/-- `ReconstructWork` (lib.rs:96-101). -/
structure ReconstructWork where
  key : Nat
  lsn : Nat
  inmem_records : List String
  historic_path : List HistoricLayer
deriving DecidableEq, Repr

/-- Embeds `Reader::get` (lib.rs:104-121): `wait_for(lsn)` blocks until the
published LSN is ≥ `lsn` (modelled as `none` while it would still block),
then collects the in-memory records and the historic reconstruct path from
the published state. -/
def Reader.get (rw : SeqWaitRW) (key lsn : Nat) : Option ReconstructWork :=
  if lsn ≤ rw.counter then
    some { key := key, lsn := lsn,
           inmem_records := (rw.data.inmem.map (fun iml => iml.get key lsn)).getD [],
           historic_path := rw.data.historic.get_reconstruct_path key lsn }
  else
    none

/-- `empty::<TestTypes>(UsizeCounter(0), LayerMap::default())` (lib.rs:73-86,
326-328): published LSN 0, no open layer, empty historic set. -/
def emptyLayerMapRW : SeqWaitRW :=
  { counter := 0, data := { inmem := none, historic := ⟨[]⟩ } }

/-- One operation of the single writer. -/
inductive WriterOp where
  | put (key lsn : Nat) (delta : String)
  | force_flush
deriving DecidableEq, Repr

/-- Runs one writer operation. -/
def WriterOp.run (rw : SeqWaitRW) : WriterOp → Except RwPanic SeqWaitRW
  | .put key lsn delta => ReadWriter.put rw key lsn delta
  | .force_flush => ReadWriter.force_flush rw

/-- Runs a sequence of writer operations, stopping at the first panic. -/
def runWriter (rw : SeqWaitRW) : List WriterOp → Except RwPanic SeqWaitRW
  | [] => .ok rw
  | op :: rest =>
    match op.run rw with
    | .ok rw' => runWriter rw' rest
    | .error e => .error e

/-- The successive published LSNs along a sequence of writer operations (cut
short at the first panic). -/
def lsnTrace (rw : SeqWaitRW) : List WriterOp → List Nat
  | [] => []
  | op :: rest =>
    match op.run rw with
    | .ok rw' => rw'.counter :: lsnTrace rw' rest
    | .error _ => []

/-- The spec precondition of `SeqWait::advance` (§4.1), checked along a run:
every `put` is issued at an LSN that is ≥ the LSN published at the moment of
the call. -/
def advancePreconditionOk (rw : SeqWaitRW) : List WriterOp → Bool
  | [] => true
  | op :: rest =>
    (match op with
     | .put _ lsn _ => decide (rw.counter ≤ lsn)
     | .force_flush => true)
    && (match op.run rw with
        | .ok rw' => advancePreconditionOk rw' rest
        | .error _ => true)

/-! ## Theorems for C7, C3, C5, C4, C8 -/

/-- **C7**: from the empty layer map at LSN 0, after `put(0,1,"foo")`,
`put(1,1,"bar")`, `put(0,10,"baz")` the published LSN has reached 10, so a
reader's `get(0, 10)` completes, and it returns exactly
`inmem_records = ["baz", "foo"]` — the records for key 0 at LSN ≤ 10 in
strictly decreasing LSN order — with an empty `historic_path`. -/
theorem reader_get_basic_scenario :
    ∃ rw, runWriter emptyLayerMapRW [.put 0 1 "foo", .put 1 1 "bar", .put 0 10 "baz"] = .ok rw
      ∧ rw.counter = 10
      ∧ Reader.get rw 0 10 =
          some { key := 0, lsn := 10, inmem_records := ["baz", "foo"], historic_path := [] } :=
  ⟨_, rfl, rfl, rfl⟩

/-- **C3** (code bug): after a successful `put(0, 1, "foo")`, a second put at
the same `(key, lsn)` takes the `AlreadyHaveRecordForKeyAndLsn` arm of
`ReadWriter::put`, which is `todo!("propagate error to caller")` — a panic,
not an error return to the caller.  No `advance` precedes the panic, so the
published LSN indeed stays at 1. -/
theorem put_duplicate_key_lsn_panics :
    ∃ rw1, ReadWriter.put emptyLayerMapRW 0 1 "foo" = .ok rw1
      ∧ rw1.counter = 1
      ∧ ReadWriter.put rw1 0 1 "bar" = .error .todoPropagateError :=
  ⟨_, rfl, rfl, rfl⟩

/-- **C5** (code bug): the `Frozen → unreachable!` arm of `ReadWriter::put`
*is* reachable from the writer path: `force_flush` freezes the open layer in
place but leaves it in the open slot, so the very next `put` finds a frozen
layer and takes that arm. -/
theorem put_after_force_flush_hits_frozen_arm :
    runWriter emptyLayerMapRW [.put 0 1 "foo", .force_flush, .put 0 2 "bar"] =
      .error .unreachableFrozen :=
  rfl

/-- **C4** (code bug): `force_flush` on a non-empty open layer returns `Ok`
but never publishes the state it builds: the published LSN and historic set
are unchanged and the open slot still holds the (now frozen) layer rather
than `None`, so subsequent reads do *not* observe an empty open slot. -/
theorem force_flush_does_not_publish :
    ∃ rw1, ReadWriter.put emptyLayerMapRW 0 1 "foo" = .ok rw1
      ∧ ∃ rw2, ReadWriter.force_flush rw1 = .ok rw2
        ∧ rw2.counter = rw1.counter
        ∧ rw2.data.historic = rw1.data.historic
        ∧ rw2.data.inmem = some ((rw1.data.inmem.getD imlDefault).freeze)
        ∧ rw2.data.inmem ≠ none :=
  ⟨_, rfl, _, rfl, rfl, rfl, rfl, by decide⟩

/-- **C8 counterexample**: the published LSN is *not* non-decreasing for
every sequence of writer operations: `put(0, 10, "a")` then `put(1, 5, "b")`
publishes 10 and then 5 — `UsizeCounter::cnt_advance` assigns the new value
unconditionally and `ReadWriter::put` calls `advance` with whatever LSN the
caller passed. -/
theorem lsn_trace_can_decrease :
    lsnTrace emptyLayerMapRW [.put 0 10 "a", .put 1 5 "b"] = [10, 5]
    ∧ ¬ List.Chain' (fun a b => a ≤ b)
        (emptyLayerMapRW.counter :: lsnTrace emptyLayerMapRW [.put 0 10 "a", .put 1 5 "b"]) := by
  constructor
  · rfl
  · intro h
    have : (10 : Nat) ≤ 5 := by
      have h' := h
      rw [show lsnTrace emptyLayerMapRW [.put 0 10 "a", .put 1 5 "b"] = [10, 5] from rfl] at h'
      exact (List.chain'_cons.mp (List.chain'_cons.mp h').2).1
    omega

/-- A successful `ReadWriter::put` publishes exactly the LSN passed by the
caller (`advance(lsn, None)` with the assigning `cnt_advance`). -/
theorem ReadWriter.put_ok_counter (rw rw' : SeqWaitRW) (key lsn : Nat) (delta : String)
    (h : ReadWriter.put rw key lsn delta = .ok rw') : rw'.counter = lsn := by
  unfold ReadWriter.put at h
  simp only [] at h
  split at h
  · injection h with h
    rw [← h]
    rfl
  · cases h
  · cases h
  · cases h

/-- A successful `ReadWriter::force_flush` leaves the published LSN
untouched (it never calls `advance`). -/
theorem ReadWriter.force_flush_counter (rw rw' : SeqWaitRW)
    (h : ReadWriter.force_flush rw = .ok rw') : rw'.counter = rw.counter := by
  unfold ReadWriter.force_flush at h
  split at h
  · injection h with h
    rw [← h]
  · simp only [] at h
    split at h
    · cases h
    · injection h with h
      rw [← h]

/-- **C8 (amended)**: the published LSN is non-decreasing along every
sequence of writer operations *provided* each `put` is issued at an LSN that
is at least the currently published LSN — the documented precondition of
`SeqWait::advance` (§4.1).  (Without that proviso the counter is simply
assigned each put's LSN and can decrease, see the counterexample.) -/
theorem lsn_monotone_under_advance_precondition (rw : SeqWaitRW) (ops : List WriterOp)
    (h : advancePreconditionOk rw ops = true) :
    List.Chain' (fun a b => a ≤ b) (rw.counter :: lsnTrace rw ops) := by
  induction ops generalizing rw with
  | nil => simp [lsnTrace]
  | cons op rest ih =>
    unfold advancePreconditionOk at h
    rw [Bool.and_eq_true] at h
    obtain ⟨hpre, hrest⟩ := h
    unfold lsnTrace
    cases hr : op.run rw with
    | error e => simp
    | ok rw' =>
      rw [hr] at hrest
      rw [List.chain'_cons]
      constructor
      · cases op with
        | put key lsn delta =>
          have : rw'.counter = lsn := ReadWriter.put_ok_counter rw rw' key lsn delta hr
          rw [this]
          simpa using hpre
        | force_flush =>
          have : rw'.counter = rw.counter := ReadWriter.force_flush_counter rw rw' hr
          rw [this]
      · exact ih rw' hrest

/-- Witness for C8's amended theorem: a run with non-decreasing put LSNs. -/
theorem lsn_monotone_under_advance_precondition_witness :
    advancePreconditionOk emptyLayerMapRW [.put 0 1 "x", .put 2 3 "y"] = true
    ∧ List.Chain' (fun a b => a ≤ b)
        (emptyLayerMapRW.counter :: lsnTrace emptyLayerMapRW [.put 0 1 "x", .put 2 3 "y"]) :=
  ⟨by decide,
    lsn_monotone_under_advance_precondition emptyLayerMapRW [.put 0 1 "x", .put 2 3 "y"]
      (by decide)⟩

/-! ## `LayerE::get_or_download` (src/pageserver/src/tenant/storage_layer.rs)

The slot `inner : Option<ResidentOrWantedEvicted>` holds either a strong
`Arc<DownloadedLayer>` or a weak one.  A `Weak` is modelled by whether its
`upgrade()` would still succeed (`alive`).  The returned
`Arc<DownloadedLayer>` carries no data relevant to the claims and is
modelled as `Unit`.  The atomics (`wanted_evicted`, `version`) are plain
fields: a single call is modelled sequentially, without interleaved
`evict` calls.  The environment-dependent steps of `get_or_download` are
abstracted by three booleans: `policyBail` (the caller's download policy is
`Error` and `ondemand_download_behavior_treat_error_as_warn` is off, so the
call bails before touching `version`, storage_layer.rs:689-716),
`downloadNeeded` (`needs_download()` found the file missing or of the wrong
size), and `downloadOk` (the spawned download, or the preceding
timeline/remote-client lookups, succeeded). -/

/-- `ResidentOrWantedEvicted` (storage_layer.rs:342-345). -/
inductive ResidentOrWantedEvicted where
  | Resident
  | WantedEvicted (alive : Bool)
deriving DecidableEq, Repr

/-- `ResidentOrWantedEvicted::get` (storage_layer.rs:348-353): a strong clone
for `Resident`, `weak.upgrade()` for `WantedEvicted`. -/
def ResidentOrWantedEvicted.get : ResidentOrWantedEvicted → Option Unit
  | .Resident => some ()
  | .WantedEvicted alive => if alive then some () else none

/-- `ResidentOrWantedEvicted::downgrade` (storage_layer.rs:357-373): a
`Resident` drops down to a weak pointer (still upgradable here, because the
caller holds the strong reference just returned by `get`); a
`WantedEvicted` is left as it is. -/
def ResidentOrWantedEvicted.downgrade : ResidentOrWantedEvicted → ResidentOrWantedEvicted
  | .Resident => .WantedEvicted true
  | .WantedEvicted alive => .WantedEvicted alive

/-- The fields of `LayerE` (storage_layer.rs:380-423) that
`get_or_download` reads or writes. -/
structure LayerEState where
  inner : Option ResidentOrWantedEvicted
  wanted_evicted : Bool
  version : Nat
deriving DecidableEq, Repr

/-- Embeds `LayerE::get_or_apply_evictedness` (storage_layer.rs:658-676):
if the slot holds a value whose `get` yields a strong pointer, return it,
first downgrading the slot if `wanted_evicted` is set; it never touches
`wanted_evicted` or `version`. -/
def LayerE.get_or_apply_evictedness (guard : Option ResidentOrWantedEvicted)
    (wanted_evicted : Bool) : Option Unit × Option ResidentOrWantedEvicted :=
  match guard with
  | some x =>
    match x.get with
    | some won => (some won, some (if wanted_evicted then x.downgrade else x))
    | none => (none, some x)
  | none => (none, none)

/-- Embeds `LayerE::get_or_download` (storage_layer.rs:679-839): first the
fast path through `get_or_apply_evictedness` (early return, before the
`version` increment); then the download-policy bail-out; then `version`
increment, `wanted_evicted := false`, `locked.take()`; then, if needed, the
download (failure returns with the slot empty); finally the slot is
refilled, `Resident` unless `wanted_evicted` was re-set concurrently (it
cannot be in this sequential model). -/
def LayerE.get_or_download (s : LayerEState) (policyBail downloadNeeded downloadOk : Bool) :
    Option Unit × LayerEState :=
  match LayerE.get_or_apply_evictedness s.inner s.wanted_evicted with
  | (some strong, inner') => (some strong, { s with inner := inner' })
  | (none, inner') =>
    if policyBail then (none, { s with inner := inner' })
    else
      let s1 : LayerEState :=
        { inner := none, wanted_evicted := false, version := s.version + 1 }
      if downloadNeeded && !downloadOk then (none, s1)
      else
        (some (),
          { s1 with
            inner := some (if s1.wanted_evicted then .WantedEvicted true else .Resident) })

/-- Whether a `get_or_download` call on state `s` returns through the fast
path (`get_or_apply_evictedness` yields a strong pointer). -/
def LayerE.fastPathHit (s : LayerEState) : Bool :=
  ((LayerE.get_or_apply_evictedness s.inner s.wanted_evicted).1).isSome

/-! ## Theorems for C9 -/

/-- **C9 counterexample**: a `get_or_download` call on a `Resident` layer
returns via the fast path and leaves `version` at 0 — no increment — and a
call that successfully returns from the `WantedEvicted` state (the weak
still upgrades) leaves `wanted_evicted` set instead of clearing it. -/
theorem get_or_download_fast_path_counterexample :
    (LayerE.get_or_download ⟨some .Resident, false, 0⟩ false false true).2.version = 0
    ∧ (LayerE.get_or_download ⟨some (.WantedEvicted true), true, 0⟩ false false true).1 =
        some ()
    ∧ (LayerE.get_or_download
        ⟨some (.WantedEvicted true), true, 0⟩ false false true).2.wanted_evicted = true := by
  decide

/-- **C9 (amended)**: `get_or_download` increments `version` and clears
`wanted_evicted` exactly on the calls that get past both the fast path and
the download-policy bail-out; a call that returns via the fast path
(including a successful return from `WantedEvicted` by upgrading the weak
reference) leaves both `version` and `wanted_evicted` unchanged. -/
theorem get_or_download_version_and_flag (s : LayerEState)
    (policyBail downloadNeeded downloadOk : Bool) :
    ((LayerE.get_or_download s policyBail downloadNeeded downloadOk).2.version =
      if LayerE.fastPathHit s || policyBail then s.version else s.version + 1)
    ∧ ((LayerE.get_or_download s policyBail downloadNeeded downloadOk).2.wanted_evicted =
      if LayerE.fastPathHit s || policyBail then s.wanted_evicted else false) := by
  unfold LayerE.get_or_download LayerE.fastPathHit
  cases hg : LayerE.get_or_apply_evictedness s.inner s.wanted_evicted with
  | mk fst snd =>
    cases fst with
    | some u => simp
    | none =>
      cases policyBail with
      | true => simp
      | false =>
        cases downloadNeeded <;> cases downloadOk <;> simp

/-! ## `tree_sort_timelines` (src/pageserver/src/tenant.rs:2367-2405)

The input `HashMap<TimelineId, TimelineMetadata>` is modelled as a list of
pairs with pairwise-distinct keys (hash maps iterate in an unspecified
order, so the embedding is stated for an arbitrary order).  The `later:
HashMap<TimelineId, Vec<…>>` of pending children is modelled as an
association list of buckets; `Vec::pop` takes the last element and
`Vec::append` appends at the end, exactly as in the source. -/

/-- One timeline as iterated by `tree_sort_timelines`. -/
abbrev TimelineEntry := Nat × TimelineMetadata

/-- The `later` map: `ancestor id → children waiting for it`. -/
abbrev Buckets := List (Nat × List TimelineEntry)

/-- `later.entry(ancestor_id).or_default().push(child)`: append `child` to
the bucket of `a`, creating the bucket (at the end, like a fresh hash-map
entry) if absent. -/
def bucketPush (later : Buckets) (a : Nat) (child : TimelineEntry) : Buckets :=
  match later with
  | [] => [(a, [child])]
  | (k, ch) :: rest =>
    if k = a then (k, ch ++ [child]) :: rest else (k, ch) :: bucketPush rest a child

/-- `later.remove(&timeline_id)`: the removed bucket (when the key is
present) together with the remaining map. -/
def bucketRemove (later : Buckets) (a : Nat) :
    Option (List TimelineEntry) × Buckets :=
  match later with
  | [] => (none, [])
  | (k, ch) :: rest =>
    if k = a then (some ch, rest)
    else ((bucketRemove rest a).1, (k, ch) :: (bucketRemove rest a).2)

/-- All entries still waiting in `later`, in bucket order. -/
def laterEntries (later : Buckets) : List TimelineEntry :=
  later.foldr (fun b acc => b.2 ++ acc) []

theorem laterEntries_nil : laterEntries [] = [] := rfl

theorem laterEntries_cons (b : Nat × List TimelineEntry) (rest : Buckets) :
    laterEntries (b :: rest) = b.2 ++ laterEntries rest := rfl

theorem mem_laterEntries (later : Buckets) (e : TimelineEntry) :
    e ∈ laterEntries later ↔ ∃ b ∈ later, e ∈ b.2 := by
  induction later with
  | nil => simp [laterEntries_nil]
  | cons b rest ih =>
    rw [laterEntries_cons]
    simp only [List.mem_append, List.mem_cons, ih]
    constructor
    · rintro (h | ⟨b', hb', he'⟩)
      · exact ⟨b, Or.inl rfl, h⟩
      · exact ⟨b', Or.inr hb', he'⟩
    · rintro ⟨b', hb' | hb', he'⟩
      · subst hb'; exact Or.inl he'
      · exact Or.inr ⟨b', hb', he'⟩

theorem bucketRemove_none_eq (later : Buckets) (a : Nat)
    (h : (bucketRemove later a).1 = none) : (bucketRemove later a).2 = later := by
  induction later with
  | nil => rfl
  | cons b rest ih =>
    rcases b with ⟨k, ch⟩
    by_cases hk : k = a
    · simp [bucketRemove, hk] at h
    · simp only [bucketRemove, if_neg hk] at h ⊢
      rw [ih h]

theorem bucketRemove_none_not_mem (later : Buckets) (a : Nat)
    (h : (bucketRemove later a).1 = none) : a ∉ later.map Prod.fst := by
  induction later with
  | nil => simp
  | cons b rest ih =>
    rcases b with ⟨k, ch⟩
    by_cases hk : k = a
    · simp [bucketRemove, hk] at h
    · simp only [bucketRemove, if_neg hk] at h
      simp only [List.map_cons, List.mem_cons]
      rintro (hak | hmem)
      · exact hk hak.symm
      · exact ih h hmem

theorem bucketRemove_some_mem (later : Buckets) (a : Nat) (ch : List TimelineEntry)
    (h : (bucketRemove later a).1 = some ch) : (a, ch) ∈ later := by
  induction later with
  | nil => cases h
  | cons b rest ih =>
    rcases b with ⟨k, ch'⟩
    by_cases hk : k = a
    · subst hk
      simp only [bucketRemove, if_pos rfl] at h
      injection h with h
      subst h
      exact List.mem_cons_self _ _
    · simp only [bucketRemove, if_neg hk] at h
      exact List.mem_cons_of_mem _ (ih h)

theorem bucketRemove_some_perm (later : Buckets) (a : Nat) (ch : List TimelineEntry)
    (h : (bucketRemove later a).1 = some ch) :
    (laterEntries later).Perm (ch ++ laterEntries (bucketRemove later a).2) := by
  induction later with
  | nil => cases h
  | cons b rest ih =>
    rcases b with ⟨k, ch'⟩
    by_cases hk : k = a
    · simp only [bucketRemove, if_pos hk] at h ⊢
      injection h with h
      subst h
      rw [laterEntries_cons]
    · simp only [bucketRemove, if_neg hk] at h ⊢
      rw [laterEntries_cons, laterEntries_cons]
      show (ch' ++ laterEntries rest).Perm
        (ch ++ (ch' ++ laterEntries (bucketRemove rest a).2))
      refine ((ih h).append_left ch').trans ?_
      rw [← List.append_assoc, ← List.append_assoc]
      exact List.perm_append_comm.append_right _

theorem bucketRemove_sublist (later : Buckets) (a : Nat) :
    (bucketRemove later a).2.Sublist later := by
  induction later with
  | nil => simp [bucketRemove]
  | cons b rest ih =>
    rcases b with ⟨k, ch⟩
    by_cases hk : k = a
    · simp only [bucketRemove, if_pos hk]
      exact List.sublist_cons_self _ _
    · simp only [bucketRemove, if_neg hk]
      exact ih.cons₂ _

theorem bucketRemove_some_not_mem (later : Buckets) (a : Nat) (ch : List TimelineEntry)
    (hnd : (later.map Prod.fst).Nodup) (h : (bucketRemove later a).1 = some ch) :
    a ∉ (bucketRemove later a).2.map Prod.fst := by
  induction later with
  | nil => cases h
  | cons b rest ih =>
    rcases b with ⟨k, ch'⟩
    simp only [List.map_cons, List.nodup_cons] at hnd
    by_cases hk : k = a
    · subst hk
      simp only [bucketRemove, if_pos rfl]
      exact hnd.1
    · simp only [bucketRemove, if_neg hk] at h ⊢
      simp only [List.map_cons, List.mem_cons]
      rintro (hak | hmem)
      · exact hk hak.symm
      · exact ih hnd.2 h hmem

theorem bucketPush_entries_perm (later : Buckets) (a : Nat) (e : TimelineEntry) :
    (laterEntries (bucketPush later a e)).Perm (e :: laterEntries later) := by
  induction later with
  | nil =>
    simp only [bucketPush, laterEntries_cons, laterEntries_nil, List.append_nil]
    exact List.Perm.refl _
  | cons b rest ih =>
    rcases b with ⟨k, ch⟩
    by_cases hk : k = a
    · simp only [bucketPush, if_pos hk, laterEntries_cons]
      show ((ch ++ [e]) ++ laterEntries rest).Perm (e :: (ch ++ laterEntries rest))
      rw [List.append_assoc]
      exact List.perm_middle.trans (List.Perm.refl _)
    · simp only [bucketPush, if_neg hk, laterEntries_cons]
      show (ch ++ laterEntries (bucketPush rest a e)).Perm (e :: (ch ++ laterEntries rest))
      exact (ih.append_left ch).trans List.perm_middle

theorem mem_keys_bucketPush (later : Buckets) (a : Nat) (e : TimelineEntry) (x : Nat)
    (h : x ∈ (bucketPush later a e).map Prod.fst) : x ∈ later.map Prod.fst ∨ x = a := by
  induction later with
  | nil =>
    simp only [bucketPush, List.map_cons, List.map_nil, List.mem_singleton] at h
    exact Or.inr h
  | cons b rest ih =>
    rcases b with ⟨k, ch⟩
    by_cases hk : k = a
    · simp only [bucketPush, if_pos hk, List.map_cons, List.mem_cons] at h
      rcases h with h | h
      · exact Or.inl (by simp [h])
      · exact Or.inl (by simp [h])
    · simp only [bucketPush, if_neg hk, List.map_cons, List.mem_cons] at h
      rcases h with h | h
      · exact Or.inl (by simp [h])
      · rcases ih h with h' | h'
        · exact Or.inl (by simp [h'])
        · exact Or.inr h'

theorem mem_bucketPush (later : Buckets) (a : Nat) (e : TimelineEntry)
    (b : Nat × List TimelineEntry) (h : b ∈ bucketPush later a e) :
    b ∈ later ∨ ∃ ch, b = (a, ch ++ [e]) ∧ ((a, ch) ∈ later ∨ ch = []) := by
  induction later with
  | nil =>
    simp only [bucketPush, List.mem_singleton] at h
    exact Or.inr ⟨[], by simpa using h, Or.inr rfl⟩
  | cons hd rest ih =>
    rcases hd with ⟨k, ch'⟩
    by_cases hk : k = a
    · subst hk
      simp only [bucketPush, if_pos, List.mem_cons] at h
      rcases h with h | h
      · exact Or.inr ⟨ch', h, Or.inl (List.mem_cons_self _ _)⟩
      · exact Or.inl (List.mem_cons_of_mem _ h)
    · simp only [bucketPush, if_neg hk, List.mem_cons] at h
      rcases h with h | h
      · exact Or.inl (by simp [h])
      · rcases ih h with h' | ⟨ch, hb, hch⟩
        · exact Or.inl (List.mem_cons_of_mem _ h')
        · refine Or.inr ⟨ch, hb, ?_⟩
          rcases hch with hch | hch
          · exact Or.inl (List.mem_cons_of_mem _ hch)
          · exact Or.inr hch

/-- Well-formedness of the `later` map, maintained by `tree_sort_timelines`:
every waiting child sits in the bucket of its own ancestor, bucket keys are
pairwise distinct, and no bucket is empty. -/
structure BucketsWF (later : Buckets) : Prop where
  anc : ∀ b ∈ later, ∀ c ∈ b.2, c.2.ancestor_timeline = some b.1
  keysNodup : (later.map Prod.fst).Nodup
  nonempty : ∀ b ∈ later, b.2 ≠ []

theorem BucketsWF.nil : BucketsWF [] := by
  refine ⟨?_, ?_, ?_⟩
  · intro b hb; cases hb
  · exact List.nodup_nil
  · intro b hb; cases hb

theorem bucketPush_keys_nodup (later : Buckets) (a : Nat) (e : TimelineEntry)
    (hnd : (later.map Prod.fst).Nodup) : ((bucketPush later a e).map Prod.fst).Nodup := by
  induction later with
  | nil => simp [bucketPush]
  | cons hd rest ih =>
    rcases hd with ⟨k, ch'⟩
    simp only [List.map_cons, List.nodup_cons] at hnd
    by_cases hk : k = a
    · simp only [bucketPush, if_pos hk, List.map_cons, List.nodup_cons]
      exact ⟨hnd.1, hnd.2⟩
    · simp only [bucketPush, if_neg hk, List.map_cons, List.nodup_cons]
      refine ⟨?_, ih hnd.2⟩
      intro hmem
      rcases mem_keys_bucketPush rest a e k hmem with h' | h'
      · exact hnd.1 h'
      · exact hk h'

theorem BucketsWF.push (later : Buckets) (a : Nat) (e : TimelineEntry)
    (hwf : BucketsWF later) (he : e.2.ancestor_timeline = some a) :
    BucketsWF (bucketPush later a e) := by
  refine ⟨?_, ?_, ?_⟩
  · intro b hb c hc
    rcases mem_bucketPush later a e b hb with hb' | ⟨ch, hb', hch⟩
    · exact hwf.anc b hb' c hc
    · subst hb'
      simp only [List.mem_append, List.mem_singleton] at hc
      rcases hc with hc | hc
      · rcases hch with hch | hch
        · exact hwf.anc _ hch c hc
        · subst hch; cases hc
      · subst hc; exact he
  · exact bucketPush_keys_nodup later a e hwf.keysNodup
  · intro b hb
    rcases mem_bucketPush later a e b hb with hb' | ⟨ch, hb', _⟩
    · exact hwf.nonempty b hb'
    · subst hb'; simp

theorem BucketsWF.remove (later : Buckets) (a : Nat) (hwf : BucketsWF later) :
    BucketsWF (bucketRemove later a).2 := by
  have hsub := bucketRemove_sublist later a
  refine ⟨?_, ?_, ?_⟩
  · intro b hb c hc
    exact hwf.anc b (hsub.subset hb) c hc
  · exact List.Nodup.sublist (hsub.map Prod.fst) hwf.keysNodup
  · intro b hb
    exact hwf.nonempty b (hsub.subset hb)

/-- Whether an entry may be emitted: its ancestor (if any) is among the
already-emitted ids `seen`. -/
def ancOk (seen : List Nat) (e : TimelineEntry) : Bool :=
  match e.2.ancestor_timeline with
  | none => true
  | some a => decide (a ∈ seen)

/-- The claim's ordering property, phrased recursively: every entry's
ancestor (if any) occurs among the ids seen before it. -/
def topoOk : List Nat → List TimelineEntry → Bool
  | _, [] => true
  | seen, e :: rest => ancOk seen e && topoOk (seen ++ [e.1]) rest

theorem ancOk_mono (seen seen' : List Nat) (e : TimelineEntry)
    (hsub : ∀ x ∈ seen, x ∈ seen') (h : ancOk seen e = true) : ancOk seen' e = true := by
  unfold ancOk at h ⊢
  cases he : e.2.ancestor_timeline with
  | none => rfl
  | some a =>
    simp only [he, decide_eq_true_eq] at h ⊢
    exact hsub a h

theorem topoOk_append (seen : List Nat) (xs : List TimelineEntry) (e : TimelineEntry) :
    topoOk seen (xs ++ [e]) = (topoOk seen xs && ancOk (seen ++ xs.map Prod.fst) e) := by
  induction xs generalizing seen with
  | nil => simp [topoOk]
  | cons x rest ih =>
    simp only [List.cons_append, topoOk, List.map_cons]
    rw [List.append_eq, ih (seen ++ [x.1])]
    simp [List.append_assoc, List.singleton_append, Bool.and_assoc]

/-- A timeline id "resolves within the input": its entry is in the input and
its ancestor chain reaches, inside the input, a timeline without an
ancestor.  A missing or circular ancestor leaves an id not `Grounded`. -/
inductive Grounded (input : List TimelineEntry) : Nat → Prop where
  | root (id : Nat) (m : TimelineMetadata) (hmem : (id, m) ∈ input)
      (hanc : m.ancestor_timeline = none) : Grounded input id
  | step (id : Nat) (m : TimelineMetadata) (a : Nat) (hmem : (id, m) ∈ input)
      (hanc : m.ancestor_timeline = some a) (ha : Grounded input a) : Grounded input id

/-- One step of the partition loop of `tree_sort_timelines`
(tenant.rs:2377-2384): an entry with an ancestor goes to that ancestor's
bucket in `later`, a root goes to `now`. -/
def partitionStep (p : List TimelineEntry × Buckets) (e : TimelineEntry) :
    List TimelineEntry × Buckets :=
  match e.2.ancestor_timeline with
  | some ancestor_id => (p.1, bucketPush p.2 ancestor_id e)
  | none => (p.1 ++ [e], p.2)

/-- The partition loop of `tree_sort_timelines` (tenant.rs:2377-2384). -/
def partitionTimelines (timelines : List TimelineEntry) :
    List TimelineEntry × Buckets :=
  timelines.foldl partitionStep ([], [])

theorem bucketRemove_some_length (later : Buckets) (a : Nat) (ch : List TimelineEntry)
    (h : (bucketRemove later a).1 = some ch) :
    (laterEntries later).length = ch.length + (laterEntries (bucketRemove later a).2).length := by
  have := (bucketRemove_some_perm later a ch h).length_eq
  simpa using this

/-- The worklist loop of `tree_sort_timelines` (tenant.rs:2386-2392):
`now.pop()` takes the *last* element, pushes it onto `result`, and
`later.remove` moves its waiting children (if any) to the end of `now`. -/
def treeSortLoop (now : List TimelineEntry) (later : Buckets)
    (result : List TimelineEntry) : List TimelineEntry × Buckets :=
  if h : now = [] then (result, later)
  else
    match hr : (bucketRemove later (now.getLast h).1).1 with
    | some children =>
      treeSortLoop (now.dropLast ++ children) (bucketRemove later (now.getLast h).1).2
        (result ++ [now.getLast h])
    | none =>
      treeSortLoop now.dropLast (bucketRemove later (now.getLast h).1).2
        (result ++ [now.getLast h])
termination_by now.length + (laterEntries later).length
decreasing_by
  · have hlen := bucketRemove_some_length later (now.getLast h).1 children hr
    have hd : now.dropLast.length + 1 = now.length := by
      rw [List.length_dropLast]
      exact Nat.succ_pred_eq_of_pos (List.length_pos.mpr h)
    simp only [List.length_append]
    omega
  · have heq := bucketRemove_none_eq later (now.getLast h).1 hr
    rw [heq]
    have hd : now.dropLast.length + 1 = now.length := by
      rw [List.length_dropLast]
      exact Nat.succ_pred_eq_of_pos (List.length_pos.mpr h)
    omega

/-- Embeds `tree_sort_timelines` (tenant.rs:2367-2405): partition, worklist
loop, and the missing-ancestors check on what is left in `later`. -/
def tree_sort_timelines (timelines : List TimelineEntry) :
    Except String (List TimelineEntry) :=
  if (treeSortLoop (partitionTimelines timelines).1 (partitionTimelines timelines).2 []).2.isEmpty
  then .ok (treeSortLoop (partitionTimelines timelines).1 (partitionTimelines timelines).2 []).1
  else .error "could not load tenant because some timelines are missing ancestors"

theorem treeSortLoop_nil (later : Buckets) (result : List TimelineEntry) :
    treeSortLoop [] later result = (result, later) := by
  rw [treeSortLoop]
  rfl

theorem treeSortLoop_some (now : List TimelineEntry) (later : Buckets)
    (result : List TimelineEntry) (h : now ≠ []) (children : List TimelineEntry)
    (hr : (bucketRemove later (now.getLast h).1).1 = some children) :
    treeSortLoop now later result =
      treeSortLoop (now.dropLast ++ children) (bucketRemove later (now.getLast h).1).2
        (result ++ [now.getLast h]) := by
  conv_lhs => rw [treeSortLoop]
  rw [dif_neg h]
  split
  · rename_i ch' hr'
    rw [hr] at hr'
    injection hr' with hr'
    rw [hr']
  · rename_i hr'
    rw [hr] at hr'
    cases hr'

theorem treeSortLoop_none (now : List TimelineEntry) (later : Buckets)
    (result : List TimelineEntry) (h : now ≠ [])
    (hr : (bucketRemove later (now.getLast h).1).1 = none) :
    treeSortLoop now later result =
      treeSortLoop now.dropLast (bucketRemove later (now.getLast h).1).2
        (result ++ [now.getLast h]) := by
  conv_lhs => rw [treeSortLoop]
  rw [dif_neg h]
  split
  · rename_i ch' hr'
    rw [hr] at hr'
    cases hr'
  · rfl

/-- Invariant of the worklist loop, relative to the original input: the
`later` map is well formed, nothing is lost or duplicated, the emitted
prefix satisfies the topological-order property, everything in `now` has
its ancestor (if any) already emitted, and no bucket key has been emitted
yet. -/
structure LoopInv (input : List TimelineEntry) (now : List TimelineEntry)
    (later : Buckets) (result : List TimelineEntry) : Prop where
  wf : BucketsWF later
  perm : (result ++ (now ++ laterEntries later)).Perm input
  topo : topoOk [] result = true
  nowOk : ∀ e ∈ now, ancOk (result.map Prod.fst) e = true
  fresh : ∀ b ∈ later, b.1 ∉ result.map Prod.fst

theorem LoopInv.step_some (input : List TimelineEntry) (now : List TimelineEntry)
    (later : Buckets) (result : List TimelineEntry) (h : now ≠ [])
    (children : List TimelineEntry)
    (hr : (bucketRemove later (now.getLast h).1).1 = some children)
    (hinv : LoopInv input now later result) :
    LoopInv input (now.dropLast ++ children) (bucketRemove later (now.getLast h).1).2
      (result ++ [now.getLast h]) := by
  set e : TimelineEntry := now.getLast h with he
  have hmem_e : e ∈ now := List.getLast_mem h
  have hnw : now.dropLast ++ [e] = now := List.dropLast_append_getLast h
  have hmap : (result ++ [e]).map Prod.fst = result.map Prod.fst ++ [e.1] := by simp
  refine ⟨BucketsWF.remove later e.1 hinv.wf, ?_, ?_, ?_, ?_⟩
  · have hl := bucketRemove_some_perm later e.1 children hr
    have hp := hinv.perm
    rw [← hnw] at hp
    rw [← Multiset.coe_eq_coe] at hp hl ⊢
    simp only [← Multiset.coe_add, ← Multiset.cons_coe, ← Multiset.singleton_add,
      Multiset.coe_nil] at hp hl ⊢
    rw [hl] at hp
    rw [← hp]
    abel
  · rw [topoOk_append, hinv.topo]
    simp only [List.nil_append, Bool.true_and]
    exact hinv.nowOk e hmem_e
  · intro x hx
    rcases List.mem_append.mp hx with hx | hx
    · have hxnow : x ∈ now := (List.dropLast_sublist now).subset hx
      refine ancOk_mono (result.map Prod.fst) _ x ?_ (hinv.nowOk x hxnow)
      intro y hy
      rw [hmap]
      exact List.mem_append.mpr (Or.inl hy)
    · have hb : (e.1, children) ∈ later := bucketRemove_some_mem later e.1 children hr
      have hanc : x.2.ancestor_timeline = some e.1 := hinv.wf.anc (e.1, children) hb x hx
      unfold ancOk
      simp only [hanc, decide_eq_true_eq]
      rw [hmap]
      exact List.mem_append.mpr (Or.inr (List.mem_singleton.mpr rfl))
  · intro b hb
    have hb' : b ∈ later := (bucketRemove_sublist later e.1).subset hb
    have h1 : b.1 ∉ result.map Prod.fst := hinv.fresh b hb'
    have h2 : b.1 ≠ e.1 := by
      intro hcontra
      have hkey : e.1 ∈ ((bucketRemove later e.1).2).map Prod.fst := by
        have hmm := List.mem_map_of_mem Prod.fst hb
        rwa [hcontra] at hmm
      exact bucketRemove_some_not_mem later e.1 children hinv.wf.keysNodup hr hkey
    rw [hmap]
    intro hcontra
    rcases List.mem_append.mp hcontra with hc | hc
    · exact h1 hc
    · exact h2 (List.mem_singleton.mp hc)

theorem LoopInv.step_none (input : List TimelineEntry) (now : List TimelineEntry)
    (later : Buckets) (result : List TimelineEntry) (h : now ≠ [])
    (hr : (bucketRemove later (now.getLast h).1).1 = none)
    (hinv : LoopInv input now later result) :
    LoopInv input now.dropLast (bucketRemove later (now.getLast h).1).2
      (result ++ [now.getLast h]) := by
  set e : TimelineEntry := now.getLast h with he
  have hmem_e : e ∈ now := List.getLast_mem h
  have hnw : now.dropLast ++ [e] = now := List.dropLast_append_getLast h
  have hmap : (result ++ [e]).map Prod.fst = result.map Prod.fst ++ [e.1] := by simp
  have heq : (bucketRemove later e.1).2 = later := bucketRemove_none_eq later e.1 hr
  refine ⟨?_, ?_, ?_, ?_, ?_⟩
  · rw [heq]; exact hinv.wf
  · rw [heq]
    have hp := hinv.perm
    rw [← hnw] at hp
    rw [← Multiset.coe_eq_coe] at hp ⊢
    simp only [← Multiset.coe_add, ← Multiset.cons_coe, ← Multiset.singleton_add,
      Multiset.coe_nil] at hp ⊢
    rw [← hp]
    abel
  · rw [topoOk_append, hinv.topo]
    simp only [List.nil_append, Bool.true_and]
    exact hinv.nowOk e hmem_e
  · intro x hx
    have hxnow : x ∈ now := (List.dropLast_sublist now).subset hx
    refine ancOk_mono (result.map Prod.fst) _ x ?_ (hinv.nowOk x hxnow)
    intro y hy
    rw [hmap]
    exact List.mem_append.mpr (Or.inl hy)
  · rw [heq]
    intro b hb
    have h1 : b.1 ∉ result.map Prod.fst := hinv.fresh b hb
    have h2 : b.1 ≠ e.1 := by
      intro hcontra
      refine bucketRemove_none_not_mem later e.1 hr ?_
      have hmm := List.mem_map_of_mem Prod.fst hb
      rwa [hcontra] at hmm
    rw [hmap]
    intro hcontra
    rcases List.mem_append.mp hcontra with hc | hc
    · exact h1 hc
    · exact h2 (List.mem_singleton.mp hc)

theorem treeSortLoop_inv (input : List TimelineEntry) (now : List TimelineEntry)
    (later : Buckets) (result : List TimelineEntry) :
    LoopInv input now later result →
    LoopInv input [] (treeSortLoop now later result).2 (treeSortLoop now later result).1 := by
  induction now, later, result using treeSortLoop.induct with
  | case1 later result =>
    intro hinv
    rw [treeSortLoop_nil]
    exact hinv
  | case2 now later result h children hr ih =>
    intro hinv
    rw [treeSortLoop_some now later result h children hr]
    exact ih (LoopInv.step_some input now later result h children hr hinv)
  | case3 now later result h hr ih =>
    intro hinv
    rw [treeSortLoop_none now later result h hr]
    exact ih (LoopInv.step_none input now later result h hr hinv)

theorem partition_foldl (rest : List TimelineEntry) (acc : List TimelineEntry × Buckets)
    (hwf : BucketsWF acc.2) (hroots : ∀ e ∈ acc.1, e.2.ancestor_timeline = none) :
    BucketsWF (rest.foldl partitionStep acc).2
    ∧ (∀ e ∈ (rest.foldl partitionStep acc).1, e.2.ancestor_timeline = none)
    ∧ ((rest.foldl partitionStep acc).1 ++
        laterEntries (rest.foldl partitionStep acc).2).Perm
        ((acc.1 ++ laterEntries acc.2) ++ rest) := by
  induction rest generalizing acc with
  | nil =>
    simp only [List.foldl_nil, List.append_nil]
    exact ⟨hwf, hroots, List.Perm.refl _⟩
  | cons x rest ih =>
    simp only [List.foldl_cons]
    cases hx : x.2.ancestor_timeline with
    | some a =>
      have hstep : partitionStep acc x = (acc.1, bucketPush acc.2 a x) := by
        unfold partitionStep
        rw [hx]
      rw [hstep]
      obtain ⟨A, B, C⟩ := ih (acc.1, bucketPush acc.2 a x) (BucketsWF.push acc.2 a x hwf hx) hroots
      refine ⟨A, B, C.trans ?_⟩
      have hpp := bucketPush_entries_perm acc.2 a x
      rw [← Multiset.coe_eq_coe] at hpp ⊢
      simp only [← Multiset.coe_add, ← Multiset.cons_coe, ← Multiset.singleton_add,
        Multiset.coe_nil] at hpp ⊢
      rw [hpp]
      abel
    | none =>
      have hstep : partitionStep acc x = (acc.1 ++ [x], acc.2) := by
        unfold partitionStep
        rw [hx]
      rw [hstep]
      have hroots' : ∀ e ∈ acc.1 ++ [x], e.2.ancestor_timeline = none := by
        intro e hemem
        rcases List.mem_append.mp hemem with hemem | hemem
        · exact hroots e hemem
        · rw [List.mem_singleton.mp hemem]
          exact hx
      obtain ⟨A, B, C⟩ := ih (acc.1 ++ [x], acc.2) hwf hroots'
      refine ⟨A, B, C.trans ?_⟩
      rw [← Multiset.coe_eq_coe]
      simp only [← Multiset.coe_add, ← Multiset.cons_coe, ← Multiset.singleton_add,
        Multiset.coe_nil]
      abel

theorem partition_loopInv (input : List TimelineEntry) :
    LoopInv input (partitionTimelines input).1 (partitionTimelines input).2 [] := by
  obtain ⟨A, B, C⟩ :=
    partition_foldl input ([], []) BucketsWF.nil (by intro e hemem; cases hemem)
  refine ⟨A, ?_, rfl, ?_, ?_⟩
  · simpa [partitionTimelines, laterEntries_nil] using C
  · intro e hemem
    unfold ancOk
    rw [B e hemem]
  · intro b _
    simp

theorem topoOk_index (out : List TimelineEntry) (seen : List Nat)
    (h : topoOk seen out = true) :
    ∀ j (hj : j < out.length),
      (out.get ⟨j, hj⟩).2.ancestor_timeline = none ∨
      ∃ a, (out.get ⟨j, hj⟩).2.ancestor_timeline = some a ∧
        (a ∈ seen ∨ a ∈ (out.take j).map Prod.fst) := by
  induction out generalizing seen with
  | nil =>
    intro j hj
    cases hj
  | cons x rest ih =>
    intro j hj
    simp only [topoOk, Bool.and_eq_true] at h
    cases j with
    | zero =>
      cases hanc : x.2.ancestor_timeline with
      | none => exact Or.inl (by simpa using hanc)
      | some a =>
        refine Or.inr ⟨a, by simpa using hanc, Or.inl ?_⟩
        have h1 := h.1
        unfold ancOk at h1
        simp only [hanc, decide_eq_true_eq] at h1
        exact h1
    | succ j' =>
      have hj' : j' < rest.length := Nat.lt_of_succ_lt_succ hj
      rcases ih (seen ++ [x.1]) h.2 j' hj' with h0 | ⟨a, ha, hmem⟩
      · exact Or.inl (by simpa using h0)
      · refine Or.inr ⟨a, by simpa using ha, ?_⟩
        rcases hmem with hmem | hmem
        · rcases List.mem_append.mp hmem with hs | hs
          · exact Or.inl hs
          · refine Or.inr ?_
            simp only [List.take_succ_cons, List.map_cons, List.mem_cons]
            exact Or.inl (List.mem_singleton.mp hs)
        · refine Or.inr ?_
          simp only [List.take_succ_cons, List.map_cons, List.mem_cons]
          exact Or.inr hmem

theorem topo_grounded (input : List TimelineEntry) (out : List TimelineEntry) (seen : List Nat)
    (htopo : topoOk seen out = true) (hseen : ∀ a ∈ seen, Grounded input a)
    (hsub : ∀ e ∈ out, e ∈ input) : ∀ e ∈ out, Grounded input e.1 := by
  induction out generalizing seen with
  | nil =>
    intro e hemem
    cases hemem
  | cons x rest ih =>
    simp only [topoOk, Bool.and_eq_true] at htopo
    have hx : Grounded input x.1 := by
      have h1 := htopo.1
      unfold ancOk at h1
      cases hanc : x.2.ancestor_timeline with
      | none => exact Grounded.root x.1 x.2 (hsub x (List.mem_cons_self _ _)) hanc
      | some a =>
        simp only [hanc, decide_eq_true_eq] at h1
        exact Grounded.step x.1 x.2 a (hsub x (List.mem_cons_self _ _)) hanc (hseen a h1)
    intro e hemem
    rcases List.mem_cons.mp hemem with hemem | hemem
    · rw [hemem]
      exact hx
    · refine ih (seen ++ [x.1]) htopo.2 ?_
        (fun e' he' => hsub e' (List.mem_cons_of_mem _ he')) e hemem
      intro a ha
      rcases List.mem_append.mp ha with ha | ha
      · exact hseen a ha
      · rw [List.mem_singleton.mp ha]
        exact hx

theorem grounded_mem_result (input out : List TimelineEntry) (later : Buckets)
    (hperm : (out ++ laterEntries later).Perm input)
    (hwf : BucketsWF later) (hfresh : ∀ b ∈ later, b.1 ∉ out.map Prod.fst) :
    ∀ id, Grounded input id → id ∈ out.map Prod.fst := by
  intro id hg
  induction hg with
  | root id m hmem hanc =>
    have hout : (id, m) ∈ out ++ laterEntries later := hperm.symm.subset hmem
    rcases List.mem_append.mp hout with hmm | hmm
    · exact List.mem_map_of_mem Prod.fst hmm
    · obtain ⟨b, hb, hcb⟩ := (mem_laterEntries later (id, m)).mp hmm
      have hba : m.ancestor_timeline = some b.1 := hwf.anc b hb (id, m) hcb
      rw [hanc] at hba
      cases hba
  | step id m a hmem hanc ha ih =>
    have hout : (id, m) ∈ out ++ laterEntries later := hperm.symm.subset hmem
    rcases List.mem_append.mp hout with hmm | hmm
    · exact List.mem_map_of_mem Prod.fst hmm
    · obtain ⟨b, hb, hcb⟩ := (mem_laterEntries later (id, m)).mp hmm
      have hba : m.ancestor_timeline = some b.1 := hwf.anc b hb (id, m) hcb
      rw [hanc] at hba
      injection hba with hba
      exact absurd (hba ▸ ih) (hfresh b hb)

/-- **C1**: with pairwise-distinct timeline ids, `tree_sort_timelines`
returns `Ok(out)` where `out` is a permutation of the input in which every
timeline's ancestor (if it has one) appears at an earlier position; and it
returns an error iff some timeline's ancestor fails to resolve within the
input (missing or circular ancestor, i.e. the entry is not `Grounded`). -/
theorem tree_sort_timelines_spec (input : List TimelineEntry)
    (hnodup : (input.map Prod.fst).Nodup) :
    (∀ out, tree_sort_timelines input = .ok out →
      out.Perm input ∧
      ∀ j (hj : j < out.length),
        (out.get ⟨j, hj⟩).2.ancestor_timeline = none ∨
        ∃ a, (out.get ⟨j, hj⟩).2.ancestor_timeline = some a ∧
          a ∈ (out.take j).map Prod.fst)
    ∧ ((tree_sort_timelines input).isOk = false ↔ ∃ e ∈ input, ¬ Grounded input e.1) := by
  have hfin := treeSortLoop_inv input _ _ _ (partition_loopInv input)
  set q := treeSortLoop (partitionTimelines input).1 (partitionTimelines input).2 [] with hq
  have hperm0 : (q.1 ++ laterEntries q.2).Perm input := by
    have hp := hfin.perm
    simpa using hp
  have hok_char : ∀ out, tree_sort_timelines input = .ok out → q.2 = [] ∧ out = q.1 := by
    intro out hout
    unfold tree_sort_timelines at hout
    rw [← hq] at hout
    by_cases hemp : q.2.isEmpty
    · rw [if_pos hemp] at hout
      injection hout with hout
      exact ⟨List.isEmpty_iff.mp hemp, hout.symm⟩
    · rw [if_neg hemp] at hout
      cases hout
  have hmain : ∀ out, tree_sort_timelines input = .ok out →
      out.Perm input ∧
      ∀ j (hj : j < out.length),
        (out.get ⟨j, hj⟩).2.ancestor_timeline = none ∨
        ∃ a, (out.get ⟨j, hj⟩).2.ancestor_timeline = some a ∧
          a ∈ (out.take j).map Prod.fst := by
    intro out hout
    obtain ⟨hq2, rfl⟩ := hok_char out hout
    constructor
    · have hp := hperm0
      rw [hq2] at hp
      simpa [laterEntries_nil] using hp
    · intro j hj
      rcases topoOk_index q.1 [] hfin.topo j hj with h0 | ⟨a, ha, hmem⟩
      · exact Or.inl h0
      · rcases hmem with hmem | hmem
        · exact absurd hmem (List.not_mem_nil a)
        · exact Or.inr ⟨a, ha, hmem⟩
  refine ⟨hmain, ?_, ?_⟩
  · intro herr
    unfold tree_sort_timelines at herr
    rw [← hq] at herr
    by_cases hemp : q.2.isEmpty
    · rw [if_pos hemp] at herr
      cases herr
    · have hne : q.2 ≠ [] := fun hh => hemp (by rw [hh]; rfl)
      obtain ⟨b, hb⟩ := List.exists_mem_of_ne_nil q.2 hne
      have hbne : b.2 ≠ [] := hfin.wf.nonempty b hb
      obtain ⟨c, hc⟩ := List.exists_mem_of_ne_nil b.2 hbne
      have hcl : c ∈ laterEntries q.2 := (mem_laterEntries q.2 c).mpr ⟨b, hb, hc⟩
      have hcin : c ∈ input := hperm0.subset (List.mem_append.mpr (Or.inr hcl))
      refine ⟨c, hcin, ?_⟩
      intro hg
      have hc1 : c.1 ∈ q.1.map Prod.fst :=
        grounded_mem_result input q.1 q.2 hperm0 hfin.wf hfin.fresh c.1 hg
      have hnd2 : ((q.1 ++ laterEntries q.2).map Prod.fst).Nodup :=
        ((hperm0.map Prod.fst).nodup_iff).mpr hnodup
      rw [List.map_append] at hnd2
      exact (List.disjoint_left.mp (List.disjoint_of_nodup_append hnd2) hc1)
        (List.mem_map_of_mem Prod.fst hcl)
  · rintro ⟨e, hein, hng⟩
    cases hcase : tree_sort_timelines input with
    | error msg => rfl
    | ok out =>
      exfalso
      obtain ⟨hq2, rfl⟩ := hok_char out hcase
      have hsub : ∀ x ∈ q.1, x ∈ input := by
        intro x hx
        refine hperm0.subset (List.mem_append.mpr (Or.inl hx))
      have hall := topo_grounded input q.1 [] hfin.topo
        (by intro a ha; exact absurd ha (List.not_mem_nil a)) hsub
      have hemem : e ∈ q.1 := by
        have hp := hperm0
        rw [hq2] at hp
        simp only [laterEntries_nil, List.append_nil] at hp
        exact hp.symm.subset hein
      exact hng (hall e hemem)

/-- A two-timeline input (a root and its child) used as the concrete witness
input for `tree_sort_timelines_spec`. -/
def sampleTimelines : List TimelineEntry := [(1, ⟨0, 0, none⟩), (2, ⟨0, 0, some 1⟩)]

/-- Witness for C1 at a concrete two-timeline input. -/
theorem tree_sort_timelines_spec_witness :
    (List.map Prod.fst sampleTimelines).Nodup
    ∧ ((∀ out, tree_sort_timelines sampleTimelines = .ok out →
        out.Perm sampleTimelines ∧
        ∀ j (hj : j < out.length),
          (out.get ⟨j, hj⟩).2.ancestor_timeline = none ∨
          ∃ a, (out.get ⟨j, hj⟩).2.ancestor_timeline = some a ∧
            a ∈ (out.take j).map Prod.fst)
      ∧ ((tree_sort_timelines sampleTimelines).isOk = false ↔
          ∃ e ∈ sampleTimelines, ¬ Grounded sampleTimelines e.1)) :=
  ⟨by decide, tree_sort_timelines_spec sampleTimelines (by decide)⟩
